import Mathlib

/-!
Verification development for the poc-intent-router plan execution engine.

This file shallowly embeds the capability-checked plan execution core of the
repository: the policy engine (`agents/policy.ts`), the plan execution engine
(`src/server.ts`: `executePlan`, `topologicalSort`, `buildStepContext`,
`getConsumedEntities`, `handleExecutePlan`), the capability CRUD handlers
(`handleUpdateCapability`, `handleDeleteCapability`) and the default
`create_document` tool handler (`agents/executor.ts`).

JSON values are modelled by the inductive `Val`; the external executor
collaborator is an oracle function; fresh UUIDs and timestamps produced by the
environment are oracle functions indexed by a call counter.  JavaScript `Map`s
keyed by strings or numbers are modelled as association lists (lookup is the
current binding; real maps never hold duplicate keys).
-/

namespace IntentRouter

/-- JSON-like runtime value (JavaScript `any`). -/
inductive Val where
  | vNull : Val
  | vBool : Bool → Val
  | vNum : Int → Val
  | vStr : String → Val
  | vArr : List Val → Val
  | vObj : List (String × Val) → Val

/-- Object property lookup (`obj.key`): first binding of the key, `none` for
non-objects or absent keys. -/
def vget (v : Val) (k : String) : Option Val :=
  match v with
  | Val.vObj fs => (fs.find? (fun p => p.fst == k)).map Prod.snd
  | _ => none

/-- A hexadecimal digit, either case (the source regexes carry the `i` flag). -/
def isHexChar (c : Char) : Bool :=
  (('0' ≤ c) && (c ≤ '9')) || (('a' ≤ c) && (c ≤ 'f')) || (('A' ≤ c) && (c ≤ 'F'))

/-- Split a character list at `'-'` (the semantics of `splitOn "-"` for a
single-character separator), written structurally so it evaluates by
reduction. -/
def splitDashes : List Char → List (List Char)
  | [] => [[]]
  | c :: rest =>
    if c == '-' then [] :: splitDashes rest
    else
      match splitDashes rest with
      | g :: gs => (c :: g) :: gs
      | [] => [[c]]

/-- The loose UUID shape test of `server.ts` `getConsumedEntities`:
`/^[0-9a-f]{8}-[0-9a-f]{4}-[0-9a-f]{4}-[0-9a-f]{4}-[0-9a-f]{12}$/i`. -/
def looseUUID (s : String) : Bool :=
  match splitDashes s.data with
  | [a, b, c, d, e] =>
    (a.length == 8) && (b.length == 4) && (c.length == 4) && (d.length == 4) &&
    (e.length == 12) && (a ++ b ++ c ++ d ++ e).all isHexChar
  | _ => false

/-- The strict UUID test of `policy.ts` `isUUID`:
`/^[0-9a-f]{8}-[0-9a-f]{4}-[1-5][0-9a-f]{3}-[89ab][0-9a-f]{3}-[0-9a-f]{12}$/i`. -/
def isUUID (s : String) : Bool :=
  match splitDashes s.data with
  | [a, b, c, d, e] =>
    (a.length == 8) && (b.length == 4) && (c.length == 4) && (d.length == 4) &&
    (e.length == 12) && a.all isHexChar &&
    b.all isHexChar &&
    (match c with
     | v :: rest => (('1' ≤ v) && (v ≤ '5')) && rest.all isHexChar
     | [] => false) &&
    (match d with
     | v :: rest =>
       ((('8' ≤ v) && (v ≤ '9')) || v == 'a' || v == 'b' || v == 'A' || v == 'B')
         && rest.all isHexChar
     | [] => false) &&
    e.all isHexChar
  | _ => false

/-- `agents/types.ts` `StepSchema`. -/
structure Step where
  op : String
  args : Val
  tool_caps : List String
  data_caps : List String
  deps : List Int

/-- `agents/types.ts` `EntitySchema` (the optional embedding vector is carried
verbatim; nothing in the verified core reads it). -/
structure Entity where
  id : String
  content : String
  embedding : Option (List Int) := none
  capabilities : List String
  metadata : List (String × Val) := []
  timestamp : String

/-- Capability kind (`"ToolCap" | "DataCap"`). -/
inductive CapKind where
  | ToolCap : CapKind
  | DataCap : CapKind
deriving DecidableEq

/-- A registry entry (`capabilities` table row / in-memory `Capability`). -/
structure Capability where
  id : String
  kind : CapKind
  scope : String
  description : Option String := none
  is_system : Bool := false
  metadata : List (String × Val) := []

/-- `agents/types.ts` `PolicyViolation`.  The violation type is kept as the
literal string union of the source. -/
structure PolicyViolation where
  step_index : Nat
  violation_type : String
  required : List String
  available : List String
  message : String
deriving DecidableEq

/-- `Map.get` on the capability registry (`this.capabilities`). -/
def capGet (caps : List Capability) (id : String) : Option Capability :=
  caps.find? (fun c => c.id == id)

/-- `new Map(entities.map(e => [e.id, e])).get(id)`: a later duplicate id
overwrites an earlier one, so lookup takes the last match. -/
def entityGet (entities : List Entity) (id : String) : Option Entity :=
  entities.reverse.find? (fun e => e.id == id)

mutual

/-- `policy.ts` `extractEntityReferences`: recursive scan of an argument tree
for strings matching the strict UUID shape (strings, then arrays, then object
values, depth first). -/
def extractEntityReferences : Val → List String
  | Val.vStr s => if isUUID s then [s] else []
  | Val.vArr xs => extractRefsList xs
  | Val.vObj fs => extractRefsFields fs
  | _ => []

/-- The `forEach(traverse)` over an array's elements. -/
def extractRefsList : List Val → List String
  | [] => []
  | v :: rest => extractEntityReferences v ++ extractRefsList rest

/-- The `Object.values(obj).forEach(traverse)` over an object's values. -/
def extractRefsFields : List (String × Val) → List String
  | [] => []
  | p :: rest => extractEntityReferences p.snd ++ extractRefsFields rest

end

/-- `policy.ts` `validateToolCapabilities`.  `toolRegistry` is the
operation-name → required-tool-capabilities object. -/
def validateToolCapabilities (caps : List Capability)
    (toolRegistry : List (String × List String)) (step : Step)
    (stepIndex : Nat) : List PolicyViolation :=
  let requiredToolCaps :=
    ((toolRegistry.find? (fun p => p.fst == step.op)).map Prod.snd).getD []
  let missingToolCaps :=
    requiredToolCaps.filter (fun c => !(step.tool_caps.contains c))
  let v1 : List PolicyViolation :=
    if missingToolCaps.isEmpty then [] else
      [⟨stepIndex, "missing_tool_cap", requiredToolCaps, step.tool_caps,
        "Step " ++ toString stepIndex ++ " (" ++ step.op ++
          ") missing required tool capabilities: " ++
          String.intercalate ", " missingToolCaps⟩]
  let invalidToolCaps := step.tool_caps.filter (fun c =>
    match capGet caps c with
    | some k => decide (k.kind ≠ CapKind.ToolCap)
    | none => true)
  let v2 : List PolicyViolation :=
    if invalidToolCaps.isEmpty then [] else
      [⟨stepIndex, "missing_tool_cap", step.tool_caps,
        (caps.filter (fun c => c.kind == CapKind.ToolCap)).map Capability.id,
        "Step " ++ toString stepIndex ++ " declares invalid tool capabilities: " ++
          String.intercalate ", " invalidToolCaps⟩]
  v1 ++ v2

/-- `policy.ts` `validateDataCapabilities`. -/
def validateDataCapabilities (caps : List Capability) (step : Step)
    (stepIndex : Nat) (entities : List Entity) : List PolicyViolation :=
  let consumedEntityIds := extractEntityReferences step.args
  let perEntity := consumedEntityIds.foldl (fun acc entityId =>
    match entityGet entities entityId with
    | none => acc
    | some ent =>
      let entityDataCaps := ent.capabilities.filter (fun c =>
        (capGet caps c).any (fun k => k.kind == CapKind.DataCap))
      let missingDataCaps :=
        entityDataCaps.filter (fun c => !(step.data_caps.contains c))
      if missingDataCaps.isEmpty then acc else
        acc ++ [⟨stepIndex, "missing_data_cap", entityDataCaps, step.data_caps,
          "Step " ++ toString stepIndex ++
            " missing data capabilities for entity " ++ entityId ++ ": " ++
            String.intercalate ", " missingDataCaps⟩]) []
  let invalidDataCaps := step.data_caps.filter (fun c =>
    match capGet caps c with
    | some k => decide (k.kind ≠ CapKind.DataCap)
    | none => true)
  let v2 : List PolicyViolation :=
    if invalidDataCaps.isEmpty then [] else
      [⟨stepIndex, "missing_data_cap", step.data_caps,
        (caps.filter (fun c => c.kind == CapKind.DataCap)).map Capability.id,
        "Step " ++ toString stepIndex ++ " declares invalid data capabilities: " ++
          String.intercalate ", " invalidDataCaps⟩]
  perEntity ++ v2

/-- `policy.ts` `validateDependencies`. -/
def validateDependencies (step : Step) (stepIndex : Nat) (totalSteps : Nat) :
    List PolicyViolation :=
  step.deps.foldl (fun acc dep =>
    let acc1 :=
      if dep < 0 || (totalSteps : Int) ≤ dep then
        acc ++ [⟨stepIndex, "invalid_dependency", step.deps.map toString,
          (List.range totalSteps).map toString,
          "Step " ++ toString stepIndex ++ " has invalid dependency: " ++
            toString dep ++ " (valid range: 0-" ++ toString (totalSteps - 1) ++ ")"⟩]
      else acc
    if (stepIndex : Int) ≤ dep then
      acc1 ++ [⟨stepIndex, "invalid_dependency", step.deps.map toString,
        (List.range stepIndex).map toString,
        "Step " ++ toString stepIndex ++ " cannot depend on step " ++
          toString dep ++ " (circular or forward dependency)"⟩]
    else acc1) []

/-- `policy.ts` `PolicyEngine.validatePlan`: per step (in order) the tool
check, then the data check, then the dependency check. -/
def validatePlan (caps : List Capability) (steps : List Step)
    (entities : List Entity) (toolRegistry : List (String × List String)) :
    List PolicyViolation :=
  (steps.enum.map (fun p =>
    validateToolCapabilities caps toolRegistry p.snd p.fst ++
    validateDataCapabilities caps p.snd p.fst entities ++
    validateDependencies p.snd p.fst steps.length)).flatten

/-- `policy.ts` `PolicyEngine.validateStep`: the tool check with an empty
requirement map and step index 0, then the data check with step index 0.  No
dependency check. -/
def validateStep (caps : List Capability) (step : Step)
    (entities : List Entity) : List PolicyViolation :=
  validateToolCapabilities caps [] step 0 ++
  validateDataCapabilities caps step 0 entities

/-! ## Topological sort (`server.ts` `topologicalSort`)

The source's recursive `visit` closure mutates a `visited` set, a `visiting`
set and a `result` array and throws on a cycle or an out-of-range dependency.
The `visiting` set is passed downward here (each successful call removes
exactly what it added, so it behaves as a stack of the recursion).  `visited`
and `result` are threaded as state.  JavaScript recursion is unbounded; the
embedding carries a fuel argument, and `topologicalSort` supplies
`steps.length + 1`, which is never exhausted because each recursion level adds
a distinct in-range index to `visiting`. -/

/-- The mutable state of the sort: the `visited` set (newest first, mirroring
`Set.add`) and the `result` array (push appends). -/
structure TopoState where
  visited : List Nat
  result : List Nat
deriving DecidableEq

/-- The source's `visit(index)`.  A revisit of an index on the current
recursion stack throws the circular-dependency error; a visited index is
skipped; otherwise the `for (const depIndex of step.deps)` loop visits every
dependency first (throwing the invalid-dependency error for an index at or
beyond the step count, and the `TypeError` that `steps[depIndex]` being
undefined raises for a negative index), then the index is pushed.  Recursion
is structural on the fuel, which decreases once per nesting level. -/
def visit (steps : List Step) : Nat → List Nat → Nat → TopoState →
    Except String TopoState
  | 0, _, _, _ => Except.error "out of fuel"
  | fuel + 1, visiting, i, s =>
    if i ∈ visiting then
      Except.error ("Circular dependency detected involving step " ++ toString i)
    else if i ∈ s.visited then Except.ok s
    else
      match steps.get? i with
      | none => Except.error "Cannot read properties of undefined"
      | some st =>
        match st.deps.foldlM (fun s2 d =>
            if (steps.length : Int) ≤ d then
              Except.error ("Invalid dependency: step " ++ toString i ++
                " depends on non-existent step " ++ toString d)
            else if d < 0 then
              Except.error "Cannot read properties of undefined"
            else visit steps fuel (i :: visiting) d.toNat s2) s with
        | Except.error e => Except.error e
        | Except.ok s1 => Except.ok ⟨i :: s1.visited, s1.result ++ [i]⟩

/-- The dependency loop of `visit`, named for reasoning: `visit` at fuel
`fuel + 1` runs exactly `visitList steps fuel (i :: visiting) i st.deps`. -/
def visitList (steps : List Step) (fuel : Nat) (visiting : List Nat)
    (parent : Nat) (ds : List Int) (s : TopoState) :
    Except String TopoState :=
  ds.foldlM (fun s2 d =>
    if (steps.length : Int) ≤ d then
      Except.error ("Invalid dependency: step " ++ toString parent ++
        " depends on non-existent step " ++ toString d)
    else if d < 0 then
      Except.error "Cannot read properties of undefined"
    else visit steps fuel visiting d.toNat s2) s

/-- `server.ts` `topologicalSort`: visit every index in order, returning the
accumulated result array, or the first error thrown. -/
def topologicalSort (steps : List Step) : Except String (List Nat) :=
  match (List.range steps.length).foldlM
      (fun s i => visit steps (steps.length + 1) [] i s) (⟨[], []⟩ : TopoState) with
  | Except.error e => Except.error e
  | Except.ok s => Except.ok s.result

/-! ## Step context and consumed-entity extraction (`server.ts`) -/

/-- The context key `step${depIndex}.result`. -/
def ctxKey (d : Int) : String := "step" ++ toString d ++ ".result"

/-- `Map.get` on the per-run step-results map (keys are step indices). -/
def resLookup (rs : List (Nat × Val)) (d : Int) : Option Val :=
  if d < 0 then none
  else ((rs.reverse).find? (fun p => p.fst == d.toNat)).map Prod.snd

/-- The key/value pairs `buildStepContext` assigns: one binding per declared
dependency whose result is present (property assignment is modelled as an
append; a repeated dependency repeats the identical binding). -/
def ctxFields (step : Step) (rs : List (Nat × Val)) : List (String × Val) :=
  step.deps.foldl (fun acc d =>
    match resLookup rs d with
    | some r => acc ++ [(ctxKey d, r)]
    | none => acc) []

/-- `server.ts` `buildStepContext`. -/
def buildStepContext (step : Step) (rs : List (Nat × Val)) : Val :=
  Val.vObj (ctxFields step rs)

mutual

/-- `server.ts` `getConsumedEntities`'s inner `extractEntityIds`: like the
policy engine's scan but with the loose UUID shape test and object traversal
only (JavaScript arrays traverse through `Object.values` as well). -/
def extractEntityIds : Val → List String
  | Val.vStr s => if looseUUID s then [s] else []
  | Val.vArr xs => extractIdsList xs
  | Val.vObj fs => extractIdsFields fs
  | _ => []

/-- Traversal of an array's values. -/
def extractIdsList : List Val → List String
  | [] => []
  | v :: rest => extractEntityIds v ++ extractIdsList rest

/-- Traversal of an object's values. -/
def extractIdsFields : List (String × Val) → List String
  | [] => []
  | p :: rest => extractEntityIds p.snd ++ extractIdsFields rest

end

/-- `server.ts` `getConsumedEntities`: scan the step arguments, then the built
context. -/
def getConsumedEntities (step : Step) (context : Val) : List String :=
  extractEntityIds step.args ++ extractEntityIds context

/-! ## Plan execution (`server.ts` `executePlan`) -/

/-- The executor collaborator's reply (`ExecutorResponse` of
`agents/types.ts`; an absent `entities` array is the empty list). -/
structure ExecutorResponse where
  result : Val
  entities : List Entity := []
  error : Option String := none

/-- `agents/types.ts` `EventSchema`. -/
structure Event where
  id : String
  plan_id : String
  step_index : Nat
  op : String
  produces : List String
  consumes : List String
  result : Val
  error : Option String
  timestamp : String

/-- The loop state of `executePlan`: the events written so far, the counters,
the step-results map, the entities persisted by `storeEntity`, and the tick
feeding the UUID/timestamp oracles. -/
structure LoopAcc where
  events : List Event
  executedSteps : Nat
  failedSteps : Nat
  stepResults : List (Nat × Val)
  stored : List Entity
  tick : Nat

/-- The initial loop state. -/
def initAcc : LoopAcc := ⟨[], 0, 0, [], [], 0⟩

/-- The environment supplying fresh UUIDs and timestamps, indexed by how many
events have been written. -/
structure Oracle where
  uuid : Nat → String
  now : Nat → String

/-- The `catch (stepError)` block of `executePlan`: append one failure event
(empty produces/consumes, null result, the error message) and bump the failed
counter. -/
def failAcc (g : Oracle) (planId : String) (i : Nat) (step : Step)
    (msg : String) (acc : LoopAcc) : LoopAcc :=
  { acc with
    events := acc.events ++
      [⟨g.uuid acc.tick, planId, i, step.op, [], [], Val.vNull, some msg,
        g.now acc.tick⟩],
    failedSteps := acc.failedSteps + 1,
    tick := acc.tick + 1 }

/-- One iteration of `executePlan`'s loop for step index `i`: build the
context, re-run `validateStep` with an empty entity list (as the source does),
invoke the executor, then either record a success event and the produced
entities, or record a failure event and rethrow the error. -/
def runStep (caps : List Capability) (exec : Nat → Step → Val → ExecutorResponse)
    (g : Oracle) (planId : String) (steps : List Step) (i : Nat)
    (acc : LoopAcc) : Except (LoopAcc × String) LoopAcc :=
  match steps.get? i with
  | none => Except.error (acc, "Cannot read properties of undefined")
  | some step =>
    let context := buildStepContext step acc.stepResults
    let violations := validateStep caps step []
    if violations.isEmpty then
      let resp := exec i step context
      match resp.error with
      | some msg => Except.error (failAcc g planId i step msg acc, msg)
      | none =>
        let acc1 := { acc with
          stepResults := acc.stepResults ++ [(i, resp.result)],
          stored := acc.stored ++ resp.entities }
        Except.ok { acc1 with
          events := acc1.events ++
            [⟨g.uuid acc.tick, planId, i, step.op,
              resp.entities.map Entity.id, getConsumedEntities step context,
              resp.result, none, g.now acc.tick⟩],
          executedSteps := acc1.executedSteps + 1,
          tick := acc.tick + 1 }
    else
      let msg := "Capability violations: " ++
        String.intercalate ", " (violations.map PolicyViolation.message)
      Except.error (failAcc g planId i step msg acc, msg)

/-- The `for (const stepIndex of sortedSteps)` loop: run steps in order,
stopping at the first failure. -/
def execSteps (caps : List Capability)
    (exec : Nat → Step → Val → ExecutorResponse) (g : Oracle)
    (planId : String) (steps : List Step) :
    List Nat → LoopAcc → LoopAcc × Option String
  | [], acc => (acc, none)
  | i :: rest, acc =>
    match runStep caps exec g planId steps i acc with
    | Except.ok a2 => execSteps caps exec g planId steps rest a2
    | Except.error (a2, msg) => (a2, some msg)

/-- The summary `executePlan` returns, plus the entities it persisted. -/
structure Outcome where
  success : Bool
  executedSteps : Nat
  failedSteps : Nat
  events : List Event
  stored : List Entity
  error : Option String

/-- `server.ts` `executePlan`: topologically sort, then execute in order; a
sort error or a step failure yields `success := false` with the terminating
error message. -/
def executePlan (caps : List Capability)
    (exec : Nat → Step → Val → ExecutorResponse) (g : Oracle)
    (planId : String) (steps : List Step) : Outcome :=
  match topologicalSort steps with
  | Except.error e => ⟨false, 0, 0, [], [], some e⟩
  | Except.ok order =>
    match execSteps caps exec g planId steps order initAcc with
    | (acc, none) =>
      ⟨true, acc.executedSteps, acc.failedSteps, acc.events, acc.stored, none⟩
    | (acc, some msg) =>
      ⟨false, acc.executedSteps, acc.failedSteps, acc.events, acc.stored,
        some msg⟩

/-- The value `handleExecutePlan` resolves to. -/
inductive HandleResult where
  | alreadyExecuting : HandleResult
  | alreadyCompleted : HandleResult
  | ran : String → Outcome → HandleResult

/-- `server.ts` `handleExecutePlan` for a stored plan with the given status:
the idempotency guards, then the `executing` status write, the run, and the
final status write.  The second component lists the `updatePlanStatus` calls
in order. -/
def handleExecutePlan (caps : List Capability)
    (exec : Nat → Step → Val → ExecutorResponse) (g : Oracle)
    (planId : String) (steps : List Step) (status : String) :
    HandleResult × List String :=
  if status == "executing" then (HandleResult.alreadyExecuting, [])
  else if status == "completed" then (HandleResult.alreadyCompleted, [])
  else
    let out := executePlan caps exec g planId steps
    let final := if out.success then "completed" else "failed"
    (HandleResult.ran final out, ["executing", final])

/-! ## Capability CRUD handlers (`server.ts`) -/

/-- The body of a capability update request (`undefined` fields are `none`;
a present-but-null description is `some none`). -/
structure UpdateBody where
  kind : Option String := none
  scope : Option String := none
  description : Option (Option String) := none
  metadata : List (String × Val) := []

/-- JavaScript `Map.set` on the registry: replace the binding if the id is
present, append otherwise. -/
def capSet (caps : List Capability) (c : Capability) : List Capability :=
  if caps.any (fun x => x.id == c.id) then
    caps.map (fun x => if x.id == c.id then c else x)
  else caps ++ [c]

/-- Object spread `{...old, ...new}` on metadata: old keys (possibly
overridden), then the genuinely new keys in order. -/
def mergeMeta (old new : List (String × Val)) : List (String × Val) :=
  old.map (fun p =>
    match new.find? (fun q => q.fst == p.fst) with
    | some q => (p.fst, q.snd)
    | none => p) ++
  new.filter (fun q => !(old.any (fun p => p.fst == q.fst)))

/-- `server.ts` `handleUpdateCapability`: 404 when absent, 403 when the entry
is a system capability (checked before the body is even parsed), 400 on a bad
kind, otherwise the merged entry replaces the old one.  Returns the HTTP
status and the resulting registry. -/
def handleUpdateCapability (caps : List Capability) (id : String)
    (body : UpdateBody) (nowTs : String) : Nat × List Capability :=
  match capGet caps id with
  | none => (404, caps)
  | some existing =>
    if existing.is_system then (403, caps)
    else
      let badKind :=
        match body.kind with
        | some k => !(k == "ToolCap" || k == "DataCap")
        | none => false
      if badKind then (400, caps)
      else
        let newKind :=
          match body.kind with
          | some k => if k == "DataCap" then CapKind.DataCap else
              if k == "ToolCap" then CapKind.ToolCap else existing.kind
          | none => existing.kind
        let newScope :=
          match body.scope with
          | some sc => if sc == "" then existing.scope else sc
          | none => existing.scope
        let newDescription :=
          match body.description with
          | some d => d
          | none => existing.description
        let updated : Capability :=
          { existing with
            kind := newKind, scope := newScope, description := newDescription,
            metadata := mergeMeta existing.metadata
              (body.metadata ++ [("updated_by", Val.vStr "api"),
                ("updated_at", Val.vStr nowTs)]) }
        (200, capSet caps updated)

/-- `server.ts` `handleDeleteCapability`: 404 when absent, 403 for a system
capability, otherwise `PolicyEngine.removeCapability` deletes the entry. -/
def handleDeleteCapability (caps : List Capability) (id : String) :
    Nat × List Capability :=
  match capGet caps id with
  | none => (404, caps)
  | some existing =>
    if existing.is_system then (403, caps)
    else (200, caps.filter (fun c => !(c.id == id)))

/-! ## The default `create_document` tool handler (`agents/executor.ts`) -/

/-- JavaScript truthiness on a JSON value (for `args.format || "text"`). -/
def truthy : Val → Bool
  | Val.vNull => false
  | Val.vBool b => b
  | Val.vNum n => !(n == 0)
  | Val.vStr s => !(s == "")
  | Val.vArr _ => true
  | Val.vObj _ => true

/-- The `create_document` handler: builds one Entity whose capability tag set
is the constant `["share_with:team"]`, and returns `{document_id, entities}`.
`freshId` stands for `crypto.randomUUID()` and `ts` for the ISO timestamp. -/
def create_document_handler (args : Val) (freshId ts : String) :
    ExecutorResponse :=
  let content := match vget args "content" with
    | some (Val.vStr s) => s
    | _ => ""
  let title := (vget args "title").getD Val.vNull
  let format := match vget args "format" with
    | some v => if truthy v then v else Val.vStr "text"
    | none => Val.vStr "text"
  let entity : Entity :=
    { id := freshId, content := content,
      capabilities := ["share_with:team"],
      metadata := [("title", title), ("format", format),
        ("created_by", Val.vStr "executor")],
      timestamp := ts }
  { result := Val.vObj [("document_id", Val.vStr freshId),
      ("entities", Val.vArr [Val.vObj [("id", Val.vStr freshId)]])],
    entities := [entity], error := none }

/-! ## Concrete inputs used across the claims -/

/-- A fixed id/timestamp environment. -/
def exOracle : Oracle := ⟨fun n => "ev-" ++ toString n, fun n => "t-" ++ toString n⟩

/-- The system capability registry seeded by `initializeCapabilities`
(restricted to the entries the examples touch). -/
def exReg : List Capability :=
  [⟨"WRITE_FILE", CapKind.ToolCap, "fs", some "Write files to filesystem", true, []⟩,
   ⟨"SEND_EMAIL", CapKind.ToolCap, "smtp", some "Send email messages", true, []⟩,
   ⟨"share_with:team", CapKind.DataCap, "sharing", some "Share data with team", true, []⟩,
   ⟨"pii_allowed", CapKind.DataCap, "privacy", some "Handle PII data", true, []⟩]

/-- The id of a pre-existing entity in the data store. -/
def uuidE0 : String := "11111111-1111-4111-8111-111111111111"

/-- A pre-existing entity whose tag set is `["pii_allowed"]`. -/
def exEntity0 : Entity :=
  { id := uuidE0, content := "customer record",
    capabilities := ["pii_allowed"], timestamp := "t-pre" }

/-- A `create_document` step whose arguments reference `exEntity0` and whose
declared capabilities are all valid (it even declares `pii_allowed`). -/
def exStepC1 : Step :=
  ⟨"create_document",
   Val.vObj [("title", Val.vStr "report"), ("content", Val.vStr "summary"),
     ("source", Val.vStr uuidE0)],
   ["WRITE_FILE"], ["pii_allowed"], []⟩

/-- The executor oracle that runs the registered `create_document` handler on
the step's arguments (fresh id and timestamp fixed). -/
def exec_create : Nat → Step → Val → ExecutorResponse := fun _ step _ =>
  create_document_handler step.args
    "22222222-2222-4222-8222-222222222222" "2025-06-01T00:00:00Z"

/-- A step that references `exEntity0` but declares no data capability at
all, so the policy data check against the live store must flag it. -/
def exStepC2 : Step :=
  ⟨"create_document",
   Val.vObj [("title", Val.vStr "leak"), ("content", Val.vStr "x"),
     ("source", Val.vStr uuidE0)],
   ["WRITE_FILE"], [], []⟩

/-- An executor oracle that always succeeds with a null result. -/
def execOkNull : Nat → Step → Val → ExecutorResponse :=
  fun _ _ _ => ⟨Val.vNull, [], none⟩

/-- A single step that declares itself as its own dependency. -/
def exSelfStep : Step := ⟨"analyze_content", Val.vNull, [], [], [0]⟩

/-! # Claim theorems -/

/-- **C1** (code bug): in the run of `exStepC1`, the step consumes
`exEntity0` (its id is recorded in the success event's `consumes`, and it
resolves in the live store to an entity tagged `pii_allowed`), yet the single
persisted output entity carries the constant tag set `["share_with:team"]`,
which does not include `pii_allowed` — the produced entity's tags are neither
equal to nor a superset of the union of the consumed entities' tags, because
`create_document` never reads the consumed tags at all. -/
theorem c1_produced_tags_not_union_of_consumed :
    (executePlan exReg exec_create exOracle "plan-1" [exStepC1]).success = true ∧
    (executePlan exReg exec_create exOracle "plan-1" [exStepC1]).events.map
      Event.consumes = [[uuidE0]] ∧
    entityGet [exEntity0] uuidE0 = some exEntity0 ∧
    "pii_allowed" ∈ exEntity0.capabilities ∧
    (executePlan exReg exec_create exOracle "plan-1" [exStepC1]).stored.map
      Entity.capabilities = [["share_with:team"]] ∧
    "pii_allowed" ∉ (["share_with:team"] : List String) := by
  refine ⟨rfl, rfl, rfl, ?_, rfl, ?_⟩ <;> decide

/-- **C2** (code bug): `validateStep` run against the live store (which holds
`exEntity0`) rejects `exStepC2` — its arguments reference an entity tagged
`pii_allowed` that the step does not declare — but the execution engine's
actual pre-step check is `validateStep(step, [])` with an empty entity list
(and `validateStep` itself uses an empty operation-requirement map), so the
step executes successfully anyway. -/
theorem c2_prestep_check_ignores_live_store :
    validateStep exReg exStepC2 [exEntity0] ≠ [] ∧
    validateStep exReg exStepC2 [] = [] ∧
    (executePlan exReg execOkNull exOracle "plan-2" [exStepC2]).success = true ∧
    (executePlan exReg execOkNull exOracle "plan-2" [exStepC2]).executedSteps = 1 ∧
    (executePlan exReg execOkNull exOracle "plan-2" [exStepC2]).events.map
      Event.error = [none] := by
  refine ⟨?_, rfl, rfl, rfl, rfl⟩
  decide

/-- **C3 counterexample**: for the one-step plan `[exSelfStep]` (a step that
depends on itself), `validatePlan` reports one `invalid_dependency` violation
while `validateStep` on the same step with the same entity set reports none,
so the two violation lists are not equal as sets (not even permutations). -/
theorem c3_counterexample_self_dependency :
    ¬ List.Perm (validatePlan exReg [exSelfStep] [] [])
      (([exSelfStep].map (fun s => validateStep exReg s [])).flatten) := by
  decide

/-- The structured fields of a violation (step index, kind, required set,
available set) — everything the claim compares except the free-text message,
which embeds the step index and so cannot agree between the two sides. -/
structure VioCore where
  step_index : Nat
  violation_type : String
  required : List String
  available : List String
deriving DecidableEq

/-- Projection of a violation to its structured fields. -/
def vcore (v : PolicyViolation) : VioCore :=
  ⟨v.step_index, v.violation_type, v.required, v.available⟩

/-- Renumber a projected violation to a given step index. -/
def vrebase (i : Nat) (c : VioCore) : VioCore := { c with step_index := i }

/-- The tool check emits the same structured violations at any step index,
renumbered. -/
theorem tool_core_rebase (caps : List Capability)
    (tr : List (String × List String)) (step : Step) (i : Nat) :
    (validateToolCapabilities caps tr step i).map vcore =
    ((validateToolCapabilities caps tr step 0).map vcore).map (vrebase i) := by
  simp only [validateToolCapabilities]
  split <;> split <;> simp [vcore, vrebase]

/-- Appending renumber-equal violations under the same guard preserves the
renumbering relation between projected violation lists. -/
theorem map_core_ite (i : Nat) (c : Prop) [Decidable c]
    (ai a0 : List PolicyViolation) (vi v0 : PolicyViolation)
    (h : ai.map vcore = (a0.map vcore).map (vrebase i))
    (hv : vcore vi = vrebase i (vcore v0)) :
    ((if c then ai else ai ++ [vi]).map vcore) =
    (((if c then a0 else a0 ++ [v0]).map vcore)).map (vrebase i) := by
  by_cases hc : c <;> simp [hc, h, hv]

/-- The per-entity part of the data check emits the same structured
violations at any step index, renumbered (fold-generalised form). -/
theorem data_fold_core_rebase (caps : List Capability) (step : Step) (i : Nat)
    (entities : List Entity) (ids : List String) (ai a0 : List PolicyViolation)
    (h : ai.map vcore = (a0.map vcore).map (vrebase i)) :
    (ids.foldl (fun acc entityId =>
      match entityGet entities entityId with
      | none => acc
      | some ent =>
        let entityDataCaps := ent.capabilities.filter (fun c =>
          (capGet caps c).any (fun k => k.kind == CapKind.DataCap))
        let missingDataCaps :=
          entityDataCaps.filter (fun c => !(step.data_caps.contains c))
        if missingDataCaps.isEmpty then acc else
          acc ++ [⟨i, "missing_data_cap", entityDataCaps, step.data_caps,
            "Step " ++ toString i ++
              " missing data capabilities for entity " ++ entityId ++ ": " ++
              String.intercalate ", " missingDataCaps⟩]) ai).map vcore =
    ((ids.foldl (fun acc entityId =>
      match entityGet entities entityId with
      | none => acc
      | some ent =>
        let entityDataCaps := ent.capabilities.filter (fun c =>
          (capGet caps c).any (fun k => k.kind == CapKind.DataCap))
        let missingDataCaps :=
          entityDataCaps.filter (fun c => !(step.data_caps.contains c))
        if missingDataCaps.isEmpty then acc else
          acc ++ [⟨0, "missing_data_cap", entityDataCaps, step.data_caps,
            "Step " ++ toString 0 ++
              " missing data capabilities for entity " ++ entityId ++ ": " ++
              String.intercalate ", " missingDataCaps⟩]) a0).map vcore).map
      (vrebase i) := by
  induction ids generalizing ai a0 with
  | nil => simpa using h
  | cons x xs ih =>
    simp only [List.foldl_cons]
    apply ih
    cases hx : entityGet entities x with
    | none => simp only [hx]; exact h
    | some ent =>
      simp only [hx]
      exact map_core_ite i _ ai a0 _ _ h rfl

/-- The data check emits the same structured violations at any step index,
renumbered. -/
theorem data_core_rebase (caps : List Capability) (step : Step) (i : Nat)
    (entities : List Entity) :
    (validateDataCapabilities caps step i entities).map vcore =
    ((validateDataCapabilities caps step 0 entities).map vcore).map
      (vrebase i) := by
  simp only [validateDataCapabilities, List.map_append]
  congr 1
  · exact data_fold_core_rebase caps step i entities _ [] [] rfl
  · exact map_core_ite i _ [] [] _ _ rfl rfl

/-- **C3 amended**: with the empty tool-requirement map `validateStep`
hardcodes, `validatePlan` reports, per step and in step order, exactly the
structured violations (step index, kind, required, available) that
`validateStep` reports for that step renumbered from index 0 to the step's
actual index, followed by the dependency-check violations that `validateStep`
never performs.  (Free-text messages differ because they embed the index.) -/
theorem c3_amended_validatePlan_decomposition (caps : List Capability)
    (steps : List Step) (entities : List Entity) :
    (validatePlan caps steps entities []).map vcore =
    (steps.enum.map (fun p =>
      ((validateStep caps p.snd entities).map (fun v => vrebase p.fst (vcore v)))
      ++ (validateDependencies p.snd p.fst steps.length).map vcore)).flatten := by
  have key : ∀ (l : List (Nat × Step)) (n : Nat),
      ((l.map (fun p =>
        validateToolCapabilities caps [] p.snd p.fst ++
        validateDataCapabilities caps p.snd p.fst entities ++
        validateDependencies p.snd p.fst n)).flatten).map vcore =
      (l.map (fun p =>
        ((validateStep caps p.snd entities).map (fun v => vrebase p.fst (vcore v)))
        ++ (validateDependencies p.snd p.fst n).map vcore)).flatten := by
    intro l n
    induction l with
    | nil => rfl
    | cons p l ih =>
      simp only [List.map_cons, List.flatten_cons, List.map_append, ih,
        validateStep, List.map_map]
      congr 2
      rw [tool_core_rebase caps [] p.snd p.fst, data_core_rebase caps p.snd p.fst]
      simp [Function.comp_def, vrebase, vcore]
  exact key steps.enum steps.length

/-! ## Correctness of the topological sort -/

/-- `Except.ok` bind computation rule. -/
theorem exceptBindOk {ε α β : Type} (a : α) (f : α → Except ε β) :
    (Except.ok a >>= f : Except ε β) = f a := rfl

/-- `Except.error` bind computation rule. -/
theorem exceptBindErr {ε α β : Type} (e : ε) (f : α → Except ε β) :
    (Except.error e >>= f : Except ε β) = Except.error e := rfl

/-- The dependency list of the step at an index (`steps[i].deps`). -/
def stepDepsAt (steps : List Step) (i : Nat) : List Int :=
  match steps.get? i with
  | some st => st.deps
  | none => []

/-- Every element's dependencies are non-negative and occur strictly earlier
in the list. -/
def depsClosed (steps : List Step) (res : List Nat) : Prop :=
  ∀ k (h : k < res.length), ∀ d ∈ stepDepsAt steps (res.get ⟨k, h⟩),
    0 ≤ d ∧ d.toNat ∈ res.take k

/-- Invariant of the sort's state: the `visited` set holds exactly the pushed
indices (newest first), the result has no duplicates, all its elements are
in range, and dependencies appear before their dependents. -/
structure TopoInv (steps : List Step) (s : TopoState) : Prop where
  vis_eq : s.visited = s.result.reverse
  nodup : s.result.Nodup
  inRange : ∀ x ∈ s.result, x < steps.length
  closed : depsClosed steps s.result

/-- Pushing an index whose dependencies are all already in the list preserves
`depsClosed`. -/
theorem depsClosed_push {steps : List Step} {res : List Nat} {i : Nat}
    (hc : depsClosed steps res)
    (hd : ∀ d ∈ stepDepsAt steps i, 0 ≤ d ∧ d.toNat ∈ res) :
    depsClosed steps (res ++ [i]) := by
  intro k h d hdep
  rcases Nat.lt_or_ge k res.length with hk | hk
  · rw [List.get_append k hk] at hdep
    rw [List.take_append_of_le_length (Nat.le_of_lt hk)]
    exact hc k hk d hdep
  · have hklen : k = res.length := by
      have := h
      simp only [List.length_append, List.length_cons, List.length_nil] at this
      omega
    subst hklen
    have hget : (res ++ [i]).get ⟨res.length, h⟩ = i := List.get_of_append rfl rfl
    rw [hget] at hdep
    rw [List.take_append_of_le_length (Nat.le_refl _)]
    have := hd d hdep
    simpa [List.take_length] using this

/-- The unfolding of `visit` at positive fuel in terms of `visitList`. -/
theorem visit_succ (steps : List Step) (fuel : Nat) (visiting : List Nat)
    (i : Nat) (s : TopoState) :
    visit steps (fuel + 1) visiting i s =
    (if i ∈ visiting then
      Except.error ("Circular dependency detected involving step " ++ toString i)
    else if i ∈ s.visited then Except.ok s
    else
      match steps.get? i with
      | none => Except.error "Cannot read properties of undefined"
      | some st =>
        match visitList steps fuel (i :: visiting) i st.deps s with
        | Except.error e => Except.error e
        | Except.ok s1 => Except.ok ⟨i :: s1.visited, s1.result ++ [i]⟩) := rfl

/-- `visitList` on the empty dependency list. -/
theorem visitList_nil (steps : List Step) (fuel : Nat) (visiting : List Nat)
    (parent : Nat) (s : TopoState) :
    visitList steps fuel visiting parent [] s = Except.ok s := rfl

/-- `visitList` on a cons: bounds checks, then the recursive visit, then the
rest of the list. -/
theorem visitList_cons (steps : List Step) (fuel : Nat) (visiting : List Nat)
    (parent : Nat) (d : Int) (ds : List Int) (s : TopoState) :
    visitList steps fuel visiting parent (d :: ds) s =
    (if (steps.length : Int) ≤ d then
      Except.error ("Invalid dependency: step " ++ toString parent ++
        " depends on non-existent step " ++ toString d)
    else if d < 0 then
      Except.error "Cannot read properties of undefined"
    else
      match visit steps fuel visiting d.toNat s with
      | Except.error e => Except.error e
      | Except.ok s1 => visitList steps fuel visiting parent ds s1) := by
  by_cases h1 : (steps.length : Int) ≤ d
  · simp [visitList, List.foldlM, h1, exceptBindErr]
  · by_cases h2 : d < 0
    · simp [visitList, List.foldlM, h1, h2, exceptBindErr]
    · simp only [visitList, List.foldlM, h1, h2, if_false]
      cases hv : visit steps fuel visiting d.toNat s with
      | error e => rw [exceptBindErr]
      | ok s1 => rw [exceptBindOk]

/-- Joint invariant preservation for `visit` and `visitList`: a successful
call extends the result monotonically with fresh indices not on the recursion
stack, preserves the invariant, and guarantees the visited index (resp. every
listed dependency, which is also shown in range and non-negative) ends up in
the result. -/
theorem visit_visitList_spec (steps : List Step) : ∀ fuel : Nat,
    (∀ visiting i s s1, visit steps fuel visiting i s = Except.ok s1 →
      TopoInv steps s →
      TopoInv steps s1 ∧ i ∈ s1.result ∧
      ∃ t, s1.result = s.result ++ t ∧ ∀ x ∈ t, x ∉ visiting) ∧
    (∀ visiting parent ds s s1,
      visitList steps fuel visiting parent ds s = Except.ok s1 →
      TopoInv steps s →
      TopoInv steps s1 ∧ (∀ d ∈ ds, 0 ≤ d ∧ d.toNat ∈ s1.result) ∧
      ∃ t, s1.result = s.result ++ t ∧ ∀ x ∈ t, x ∉ visiting) := by
  intro fuel
  induction fuel with
  | zero =>
    constructor
    · intro visiting i s s1 hok _
      simp [visit] at hok
    · intro visiting parent ds
      induction ds with
      | nil =>
        intro s s1 hok hinv
        rw [visitList_nil] at hok
        cases hok
        exact ⟨hinv, by simp, [], by simp, by simp⟩
      | cons d ds _ =>
        intro s s1 hok hinv
        rw [visitList_cons] at hok
        by_cases h1 : (steps.length : Int) ≤ d
        · rw [if_pos h1] at hok; cases hok
        rw [if_neg h1] at hok
        by_cases h2 : d < 0
        · rw [if_pos h2] at hok; cases hok
        rw [if_neg h2] at hok
        simp [visit] at hok
  | succ fuel ih =>
    obtain ⟨_, ihList⟩ := ih
    have hV : ∀ visiting i s s1, visit steps (fuel + 1) visiting i s = Except.ok s1 →
        TopoInv steps s →
        TopoInv steps s1 ∧ i ∈ s1.result ∧
        ∃ t, s1.result = s.result ++ t ∧ ∀ x ∈ t, x ∉ visiting := by
      intro visiting i s s1 hok hinv
      rw [visit_succ] at hok
      by_cases hm1 : i ∈ visiting
      · rw [if_pos hm1] at hok; cases hok
      rw [if_neg hm1] at hok
      by_cases hm2 : i ∈ s.visited
      · rw [if_pos hm2] at hok
        cases hok
        refine ⟨hinv, ?_, [], by simp, by simp⟩
        rw [hinv.vis_eq, List.mem_reverse] at hm2
        exact hm2
      rw [if_neg hm2] at hok
      split at hok
      · cases hok
      · rename_i st hg
        split at hok
        · cases hok
        · rename_i s2 hL
          cases hok
          obtain ⟨hinv2, hdeps, t1, ht1, ht1v⟩ :=
            ihList (i :: visiting) i st.deps s s2 hL hinv
          have hiNotInRes : i ∉ s2.result := by
            rw [ht1]
            intro hmem
            rcases List.mem_append.mp hmem with hin | hin
            · apply hm2
              rw [hinv.vis_eq, List.mem_reverse]
              exact hin
            · exact (ht1v i hin) (List.mem_cons_self i visiting)
          have hiLt : i < steps.length := by
            rcases List.get?_eq_some.mp hg with ⟨hlt, _⟩
            exact hlt
          have hDepsAt : stepDepsAt steps i = st.deps := by
            unfold stepDepsAt
            rw [hg]
          refine ⟨⟨?_, ?_, ?_, ?_⟩, ?_, t1 ++ [i], ?_, ?_⟩
          · simp [hinv2.vis_eq]
          · simp [List.nodup_append, hinv2.nodup, hiNotInRes,
              List.disjoint_singleton]
          · intro x hx
            rcases List.mem_append.mp hx with hin | hin
            · exact hinv2.inRange x hin
            · simp only [List.mem_singleton] at hin
              subst hin; exact hiLt
          · exact depsClosed_push hinv2.closed (by rw [hDepsAt]; exact hdeps)
          · simp
          · simp [ht1]
          · intro x hx
            rcases List.mem_append.mp hx with hin | hin
            · exact fun hv2 => (ht1v x hin) (List.mem_cons_of_mem i hv2)
            · simp only [List.mem_singleton] at hin
              subst hin; exact hm1
    refine ⟨hV, ?_⟩
    intro visiting parent ds
    induction ds with
    | nil =>
      intro s s1 hok hinv
      rw [visitList_nil] at hok
      cases hok
      exact ⟨hinv, by simp, [], by simp, by simp⟩
    | cons d ds ihds =>
      intro s s1 hok hinv
      rw [visitList_cons] at hok
      by_cases h1 : (steps.length : Int) ≤ d
      · rw [if_pos h1] at hok; cases hok
      rw [if_neg h1] at hok
      by_cases h2 : d < 0
      · rw [if_pos h2] at hok; cases hok
      rw [if_neg h2] at hok
      cases hv : visit steps (fuel + 1) visiting d.toNat s with
      | error e => rw [hv] at hok; cases hok
      | ok s2 =>
        rw [hv] at hok
        obtain ⟨hinv2, hdmem, t1, ht1, ht1v⟩ := hV visiting d.toNat s s2 hv hinv
        obtain ⟨hinv3, hds, t2, ht2, ht2v⟩ := ihds s2 s1 hok hinv2
        refine ⟨hinv3, ?_, t1 ++ t2, ?_, ?_⟩
        · intro d2 hd2
          rcases List.mem_cons.mp hd2 with hdd | hdd
          · subst hdd
            refine ⟨Int.not_lt.mp h2, ?_⟩
            rw [ht2]
            exact List.mem_append_left t2 hdmem
          · exact hds d2 hdd
        · rw [ht2, ht1, List.append_assoc]
        · intro x hx
          rcases List.mem_append.mp hx with hin | hin
          · exact ht1v x hin
          · exact ht2v x hin

/-- The outer `for (let i = 0; ...) visit(i)` loop preserves the invariant
and puts every looped-over index into the result. -/
theorem foldVisits_spec (steps : List Step) (F : Nat) :
    ∀ (idxs : List Nat) (s s1 : TopoState),
    idxs.foldlM (fun s i => visit steps F [] i s) s = Except.ok s1 →
    TopoInv steps s →
    TopoInv steps s1 ∧ (∃ t, s1.result = s.result ++ t) ∧
      ∀ i ∈ idxs, i ∈ s1.result := by
  intro idxs
  induction idxs with
  | nil =>
    intro s s1 hok hinv
    simp only [List.foldlM] at hok
    cases hok
    exact ⟨hinv, ⟨[], by simp⟩, by simp⟩
  | cons i rest ih =>
    intro s s1 hok hinv
    simp only [List.foldlM] at hok
    cases hv : visit steps F [] i s with
    | error e => rw [hv, exceptBindErr] at hok; cases hok
    | ok s2 =>
      rw [hv, exceptBindOk] at hok
      obtain ⟨hinv2, himem, t1, ht1, _⟩ :=
        (visit_visitList_spec steps F).1 [] i s s2 hv hinv
      obtain ⟨hinv3, ⟨t2, ht2⟩, hall⟩ := ih s2 s1 hok hinv2
      refine ⟨hinv3, ⟨t1 ++ t2, by rw [ht2, ht1, List.append_assoc]⟩, ?_⟩
      intro j hj
      rcases List.mem_cons.mp hj with hji | hjr
      · subst hji
        rw [ht2]
        exact List.mem_append_left t2 himem
      · exact hall j hjr

/-- A successful `topologicalSort` yields a duplicate-free list of in-range
indices that covers every step and lists every step's dependencies
(non-negative, in range) strictly before the step. -/
theorem topologicalSort_spec (steps : List Step) (order : List Nat)
    (h : topologicalSort steps = Except.ok order) :
    order.Nodup ∧ (∀ x ∈ order, x < steps.length) ∧
    (∀ i, i < steps.length → i ∈ order) ∧ depsClosed steps order := by
  unfold topologicalSort at h
  cases hf : (List.range steps.length).foldlM
      (fun s i => visit steps (steps.length + 1) [] i s)
      (⟨[], []⟩ : TopoState) with
  | error e => rw [hf] at h; cases h
  | ok s =>
    rw [hf] at h
    cases h
    have hinit : TopoInv steps ⟨[], []⟩ :=
      ⟨rfl, List.nodup_nil, by simp, fun k hk => by simp at hk⟩
    obtain ⟨hinv, _, hcover⟩ := foldVisits_spec steps (steps.length + 1)
      (List.range steps.length) ⟨[], []⟩ s hf hinit
    exact ⟨hinv.nodup, hinv.inRange,
      fun i hi => hcover i (List.mem_range.mpr hi), hinv.closed⟩

/-- An element of `l.take k` has its first occurrence before position `k`. -/
theorem indexOf_lt_of_mem_take {l : List Nat} {a k : Nat}
    (h : a ∈ l.take k) : l.indexOf a < k := by
  induction l generalizing k with
  | nil => simp at h
  | cons x xs ih =>
    cases k with
    | zero => simp at h
    | succ k =>
      rw [List.take_succ_cons] at h
      rcases List.mem_cons.mp h with hax | hmem
      · subst hax
        rw [List.indexOf_cons_self]
        exact Nat.succ_pos k
      · by_cases hxa : x = a
        · subst hxa
          rw [List.indexOf_cons_self]
          exact Nat.succ_pos k
        · rw [List.indexOf_cons_ne _ hxa]
          exact Nat.succ_lt_succ (ih hmem)

/-- **C6**: whenever `topologicalSort` succeeds, the returned order is a
permutation of all step indices, and every dependency of every step occurs at a
strictly smaller order position than the step itself. -/
theorem c6_topologicalSort_valid (steps : List Step) (order : List Nat)
    (h : topologicalSort steps = Except.ok order) :
    List.Perm order (List.range steps.length) ∧
    ∀ i (hi : i < steps.length), ∀ d ∈ (steps.get ⟨i, hi⟩).deps,
      order.indexOf d.toNat < order.indexOf i := by
  obtain ⟨hnodup, hrange, hcover, hclosed⟩ := topologicalSort_spec steps order h
  constructor
  · rw [List.perm_ext_iff_of_nodup hnodup (List.nodup_range _)]
    intro a
    constructor
    · intro ha
      exact List.mem_range.mpr (hrange a ha)
    · intro ha
      exact hcover a (List.mem_range.mp ha)
  · intro i hi d hd
    have himem : i ∈ order := hcover i hi
    have hk : order.indexOf i < order.length := List.indexOf_lt_length.mpr himem
    have hgi : order.get ⟨order.indexOf i, hk⟩ = i := List.indexOf_get hk
    have hdeps : stepDepsAt steps (order.get ⟨order.indexOf i, hk⟩) =
        (steps.get ⟨i, hi⟩).deps := by
      rw [hgi]
      unfold stepDepsAt
      rw [List.get?_eq_get hi]
    have := hclosed (order.indexOf i) hk d (by rw [hdeps]; exact hd)
    exact indexOf_lt_of_mem_take this.2

/-! ## Identity order for dependency-validated plans (C10) and rejection of
cycles and out-of-range dependencies (C5) -/

/-- A `visit` of an already-visited index not on the stack is a no-op. -/
theorem visit_visited_mem (steps : List Step) (fuel : Nat) (visiting : List Nat)
    (i : Nat) (s : TopoState) (h1 : i ∉ visiting) (h2 : i ∈ s.visited) :
    visit steps (fuel + 1) visiting i s = Except.ok s := by
  rw [visit_succ, if_neg h1, if_pos h2]

/-- The dependency loop is a no-op when every dependency is in range,
already visited, and off the stack. -/
theorem visitList_all_visited (steps : List Step) (fuel : Nat)
    (visiting : List Nat) (parent : Nat) :
    ∀ (ds : List Int) (s : TopoState),
    (∀ d ∈ ds, 0 ≤ d ∧ d < (steps.length : Int) ∧ d.toNat ∈ s.visited ∧
      d.toNat ∉ visiting) →
    visitList steps (fuel + 1) visiting parent ds s = Except.ok s := by
  intro ds
  induction ds with
  | nil => intro s _; exact visitList_nil steps (fuel + 1) visiting parent s
  | cons d ds ih =>
    intro s hall
    rw [visitList_cons]
    obtain ⟨h0, hlt, hvis, hnv⟩ := hall d (List.mem_cons_self d ds)
    rw [if_neg (Int.not_le.mpr hlt), if_neg (Int.not_lt.mpr h0)]
    rw [visit_visited_mem steps fuel visiting d.toNat s hnv hvis]
    exact ih s (fun d2 hd2 => hall d2 (List.mem_cons_of_mem _ hd2))

/-- For a plan whose every dependency is non-negative and strictly below its
step's own index, visiting index `k` from the state that already holds
`0, …, k-1` just appends `k`. -/
theorem visit_prefix_step (steps : List Step)
    (hvalid : ∀ i (hi : i < steps.length), ∀ d ∈ (steps.get ⟨i, hi⟩).deps,
      0 ≤ d ∧ d.toNat < i)
    (k : Nat) (hk : k < steps.length) :
    visit steps (steps.length + 1) [] k
      ⟨(List.range k).reverse, List.range k⟩ =
    Except.ok ⟨(List.range (k + 1)).reverse, List.range (k + 1)⟩ := by
  obtain ⟨m, hm⟩ : ∃ m, steps.length = m + 1 := ⟨steps.length - 1, by omega⟩
  have hg : steps.get? k = some (steps.get ⟨k, hk⟩) := List.get?_eq_get hk
  have hdeploop := visitList_all_visited steps m [k] k
    (steps.get ⟨k, hk⟩).deps ⟨(List.range k).reverse, List.range k⟩ ?_
  · rw [show m + 1 = steps.length from by omega] at hdeploop
    rw [show steps.length + 1 = (m + 1) + 1 from by omega, visit_succ,
      if_neg (List.not_mem_nil k), if_neg (by simp)]
    simp only [hg]
    rw [show (m + 1 : Nat) = steps.length from by omega, hdeploop]
    simp [List.range_succ]
  · intro d hd
    obtain ⟨h0, hdk⟩ := hvalid k hk d hd
    refine ⟨h0, ?_, ?_, ?_⟩
    · have : (d.toNat : Int) = d := Int.toNat_of_nonneg h0
      omega
    · simp only [List.mem_reverse, List.mem_range]
      exact hdk
    · simp only [List.mem_singleton]
      omega

/-- The outer loop over `k, k+1, …, n-1` from the state holding `0, …, k-1`
produces exactly `0, …, n-1`. -/
theorem foldVisits_identity (steps : List Step)
    (hvalid : ∀ i (hi : i < steps.length), ∀ d ∈ (steps.get ⟨i, hi⟩).deps,
      0 ≤ d ∧ d.toNat < i) :
    ∀ (m k : Nat), k + m = steps.length →
    (List.range' k m).foldlM
      (fun s i => visit steps (steps.length + 1) [] i s)
      (⟨(List.range k).reverse, List.range k⟩ : TopoState) =
    Except.ok ⟨(List.range steps.length).reverse, List.range steps.length⟩ := by
  intro m
  induction m with
  | zero =>
    intro k hk
    have : k = steps.length := by omega
    subst this
    rfl
  | succ m ih =>
    intro k hk
    rw [List.range'_succ]
    simp only [List.foldlM]
    rw [visit_prefix_step steps hvalid k (by omega), exceptBindOk]
    exact ih (k + 1) (by omega)

/-- **C10**: for every plan in which each step's dependencies are all
non-negative and strictly below the step's own index (the shape the
dependency validation rule admits), the topological sort returns exactly the
identity ordering `[0, 1, …, n-1]`, so the engine executes the steps in their
original plan order. -/
theorem c10_identity_order (steps : List Step)
    (hvalid : ∀ i (hi : i < steps.length), ∀ d ∈ (steps.get ⟨i, hi⟩).deps,
      0 ≤ d ∧ d.toNat < i) :
    topologicalSort steps = Except.ok (List.range steps.length) := by
  have h := foldVisits_identity steps hvalid steps.length 0 (by omega)
  unfold topologicalSort
  rw [List.range_eq_range'] at h ⊢
  rw [show (⟨[], []⟩ : TopoState) =
    ⟨(List.range' 0 0).reverse, List.range' 0 0⟩ from rfl]
  rw [h]
  simp [List.range_eq_range']

/-- The spec's two-step cycle: step 0 deps [1], step 1 deps [0]. -/
def exCycleSteps : List Step :=
  [⟨"analyze_content", Val.vNull, [], [], [1]⟩,
   ⟨"analyze_content", Val.vNull, [], [], [0]⟩]

/-- A one-step plan whose dependency index 5 is beyond the step count. -/
def exBadDepSteps : List Step :=
  [⟨"analyze_content", Val.vNull, [], [], [5]⟩]

/-- A two-step chain: step 1 depends on step 0. -/
def exChainSteps : List Step :=
  [⟨"analyze_content", Val.vNull, [], [], []⟩,
   ⟨"analyze_content", Val.vNull, [], [], [0]⟩]

/-- **C5**: the cyclic plan fails the sort with the circular-dependency
error, so for any registry/executor its execution records zero events, runs
zero steps, reports failure, and the plan is finally marked `failed`; a
successful sort moreover certifies every dependency index of every step
non-negative and below the step count (so an out-of-range index always aborts
the sort), and for the concrete out-of-range plan the error is the
invalid-dependency one. -/
theorem c5_cycle_and_out_of_range_rejection :
    topologicalSort exCycleSteps =
      Except.error "Circular dependency detected involving step 0" ∧
    (∀ caps exec g planId, executePlan caps exec g planId exCycleSteps =
      ⟨false, 0, 0, [], [],
        some "Circular dependency detected involving step 0"⟩) ∧
    (∀ caps exec g planId status, status ≠ "executing" → status ≠ "completed" →
      handleExecutePlan caps exec g planId exCycleSteps status =
        (HandleResult.ran "failed"
          ⟨false, 0, 0, [], [],
            some "Circular dependency detected involving step 0"⟩,
         ["executing", "failed"])) ∧
    (∀ steps order, topologicalSort steps = Except.ok order →
      ∀ i (hi : i < steps.length), ∀ d ∈ (steps.get ⟨i, hi⟩).deps,
        0 ≤ d ∧ d.toNat < steps.length) ∧
    topologicalSort exBadDepSteps =
      Except.error "Invalid dependency: step 0 depends on non-existent step 5" := by
  refine ⟨rfl, fun caps exec g planId => rfl, ?_, ?_, rfl⟩
  · intro caps exec g planId status h1 h2
    simp only [handleExecutePlan]
    rw [if_neg (by simp [h1]), if_neg (by simp [h2])]
    rfl
  · intro steps order hsort i hi d hd
    obtain ⟨hnodup, hrange, hcover, hclosed⟩ := topologicalSort_spec steps order hsort
    have himem : i ∈ order := hcover i hi
    have hk : order.indexOf i < order.length := List.indexOf_lt_length.mpr himem
    have hgi : order.get ⟨order.indexOf i, hk⟩ = i := List.indexOf_get hk
    have hdeps : stepDepsAt steps (order.get ⟨order.indexOf i, hk⟩) =
        (steps.get ⟨i, hi⟩).deps := by
      rw [hgi]
      unfold stepDepsAt
      rw [List.get?_eq_get hi]
    have hc := hclosed (order.indexOf i) hk d (by rw [hdeps]; exact hd)
    exact ⟨hc.1, hrange _ (List.mem_of_mem_take hc.2)⟩

/-- Witness for C5: the cycle error on the concrete cyclic plan, and the
range certificate applied to the concrete two-step chain (whose sort
succeeds by evaluation) at step 1's dependency 0. -/
theorem c5_witness :
    topologicalSort exChainSteps = Except.ok [0, 1] ∧
    ("pending" ≠ "executing" ∧ "pending" ≠ "completed") ∧
    (0 ≤ (0 : Int) ∧ (0 : Int).toNat < exChainSteps.length) ∧
    handleExecutePlan [] execOkNull exOracle "p" exCycleSteps "pending" =
      (HandleResult.ran "failed"
        ⟨false, 0, 0, [], [],
          some "Circular dependency detected involving step 0"⟩,
       ["executing", "failed"]) := by
  refine ⟨rfl, ⟨by decide, by decide⟩, ?_, ?_⟩
  · exact c5_cycle_and_out_of_range_rejection.2.2.2.1 exChainSteps [0, 1] rfl 1
      (by decide) 0 (by decide)
  · exact c5_cycle_and_out_of_range_rejection.2.2.1 [] execOkNull exOracle "p"
      "pending" (by decide) (by decide)

/-- Witness for C6: on the concrete chain plan the sort succeeds and the
returned order is a permutation of `[0, 1]` with dependency 0 placed before
its dependent step 1. -/
theorem c6_witness :
    topologicalSort exChainSteps = Except.ok [0, 1] ∧
    List.Perm [0, 1] (List.range exChainSteps.length) ∧
    [0, 1].indexOf ((0 : Int)).toNat < [0, 1].indexOf 1 := by
  refine ⟨rfl, ?_, ?_⟩
  · exact (c6_topologicalSort_valid exChainSteps [0, 1] rfl).1
  · exact (c6_topologicalSort_valid exChainSteps [0, 1] rfl).2 1 (by decide) 0
      (by decide)

/-- Witness for C10: a concrete three-step plan with backward dependencies
sorts to the identity order. -/
theorem c10_witness :
    topologicalSort
      [⟨"analyze_content", Val.vNull, [], [], ([] : List Int)⟩,
       ⟨"analyze_content", Val.vNull, [], [], [0]⟩,
       ⟨"analyze_content", Val.vNull, [], [], [0, 1]⟩] =
      Except.ok (List.range 3) := by
  exact c10_identity_order _ (by decide)

/-! ## Fail-fast execution (C4) -/

/-- A successful `runStep` appends exactly one success event for its index
and bumps only the executed counter. -/
theorem runStep_ok_spec (caps : List Capability)
    (exec : Nat → Step → Val → ExecutorResponse) (g : Oracle) (planId : String)
    (steps : List Step) (i : Nat) (acc a2 : LoopAcc)
    (h : runStep caps exec g planId steps i acc = Except.ok a2) :
    ∃ ev : Event, a2.events = acc.events ++ [ev] ∧ ev.error = none ∧
      ev.step_index = i ∧ a2.executedSteps = acc.executedSteps + 1 ∧
      a2.failedSteps = acc.failedSteps := by
  simp only [runStep] at h
  split at h
  · cases h
  · split at h
    · split at h
      · cases h
      · cases h
        exact ⟨_, rfl, rfl, rfl, rfl, rfl⟩
    · cases h

/-- A failing `runStep` on an in-range index appends exactly one failure
event — empty produces and consumes, null result, the error message — and
bumps only the failed counter. -/
theorem runStep_err_spec (caps : List Capability)
    (exec : Nat → Step → Val → ExecutorResponse) (g : Oracle) (planId : String)
    (steps : List Step) (i : Nat) (acc a2 : LoopAcc) (msg : String)
    (hlt : i < steps.length)
    (h : runStep caps exec g planId steps i acc = Except.error (a2, msg)) :
    ∃ fe : Event, a2.events = acc.events ++ [fe] ∧ fe.error = some msg ∧
      fe.step_index = i ∧ fe.produces = [] ∧ fe.consumes = [] ∧
      fe.result = Val.vNull ∧ a2.failedSteps = acc.failedSteps + 1 ∧
      a2.executedSteps = acc.executedSteps := by
  simp only [runStep] at h
  split at h
  · rename_i hg
    rw [List.get?_eq_none] at hg
    omega
  · split at h
    · split at h
      · cases h
        exact ⟨_, rfl, rfl, rfl, rfl, rfl, rfl, rfl, rfl⟩
      · cases h
    · cases h
      exact ⟨_, rfl, rfl, rfl, rfl, rfl, rfl, rfl, rfl⟩

/-- The loop of `executePlan`, when it ends in failure, produced the events
of a successful prefix of the sorted order followed by exactly one failure
event, and touched no later step. -/
theorem execSteps_fail_spec (caps : List Capability)
    (exec : Nat → Step → Val → ExecutorResponse) (g : Oracle) (planId : String)
    (steps : List Step) :
    ∀ (order : List Nat) (acc acc1 : LoopAcc) (msg : String),
    (∀ i ∈ order, i < steps.length) →
    execSteps caps exec g planId steps order acc = (acc1, some msg) →
    ∃ pre fe, acc1.events = acc.events ++ pre ++ [fe] ∧
      (∀ e ∈ pre, e.error = none) ∧
      fe.error = some msg ∧ fe.produces = [] ∧ fe.consumes = [] ∧
      fe.result = Val.vNull ∧
      acc1.failedSteps = acc.failedSteps + 1 ∧
      acc1.executedSteps = acc.executedSteps + pre.length ∧
      (pre ++ [fe]).map Event.step_index = order.take (pre.length + 1) := by
  intro order
  induction order with
  | nil =>
    intro acc acc1 msg _ h
    simp [execSteps] at h
  | cons i rest ih =>
    intro acc acc1 msg hin h
    simp only [execSteps] at h
    cases hr : runStep caps exec g planId steps i acc with
    | error p =>
      obtain ⟨a2, m⟩ := p
      rw [hr] at h
      cases h
      obtain ⟨fe, hfe, hferr, hfidx, hfp, hfc, hfr, hff, hfx⟩ :=
        runStep_err_spec caps exec g planId steps i acc acc1 msg
          (hin i (List.mem_cons_self i rest)) hr
      refine ⟨[], fe, by simpa using hfe, by simp, hferr, hfp, hfc, hfr, hff,
        by simpa using hfx, ?_⟩
      simp [hfidx]
    | ok a2 =>
      rw [hr] at h
      obtain ⟨ev, hev, heverr, hevidx, hexec, hfail⟩ :=
        runStep_ok_spec caps exec g planId steps i acc a2 hr
      obtain ⟨pre, fe, h1, h2, h3, h4, h5, h6, h7, h8, h9⟩ :=
        ih a2 acc1 msg (fun j hj => hin j (List.mem_cons_of_mem _ hj)) h
      refine ⟨ev :: pre, fe, ?_, ?_, h3, h4, h5, h6, ?_, ?_, ?_⟩
      · rw [h1, hev]
        simp
      · intro e he
        rcases List.mem_cons.mp he with hee | hee
        · subst hee; exact heverr
        · exact h2 e hee
      · rw [h7, hfail]
      · rw [h8, hexec]
        simp [Nat.add_assoc, Nat.add_comm 1 pre.length]
      · simp only [List.cons_append, List.map_cons, hevidx, List.length_cons]
        rw [h9, List.take_succ_cons]

/-- **C4**: whenever a sorted plan's execution fails (a step failed — a
collaborator error or a policy violation), the event log is the success
events of the executed prefix followed by exactly one failure event (empty
produces/consumes, null result, the terminating error message), the failed
counter is exactly 1, the executed counter counts only the prefix, no step
ordered after the failed one has any event, and `handleExecutePlan` marks
the plan `failed`. -/
theorem c4_fail_fast (caps : List Capability)
    (exec : Nat → Step → Val → ExecutorResponse) (g : Oracle) (planId : String)
    (steps : List Step) (order : List Nat) (out : Outcome)
    (hsort : topologicalSort steps = Except.ok order)
    (hout : executePlan caps exec g planId steps = out)
    (hfail : out.success = false) :
    ∃ pre fe msg,
      out.events = pre ++ [fe] ∧
      out.error = some msg ∧ fe.error = some msg ∧
      fe.produces = [] ∧ fe.consumes = [] ∧ fe.result = Val.vNull ∧
      out.failedSteps = 1 ∧ out.executedSteps = pre.length ∧
      (∀ e ∈ pre, e.error = none) ∧
      out.events.map Event.step_index = order.take (pre.length + 1) ∧
      (∀ j (hj : j < order.length), pre.length + 1 ≤ j →
        ∀ e ∈ out.events, e.step_index ≠ order.get ⟨j, hj⟩) ∧
      (∀ status, status ≠ "executing" → status ≠ "completed" →
        handleExecutePlan caps exec g planId steps status =
          (HandleResult.ran "failed" out, ["executing", "failed"])) := by
  obtain ⟨hnodup, hrange, _, _⟩ := topologicalSort_spec steps order hsort
  unfold executePlan at hout
  simp only [hsort] at hout
  cases he : execSteps caps exec g planId steps order initAcc with
  | mk acc err =>
    cases err with
    | none =>
      simp only [he] at hout
      subst hout
      simp at hfail
    | some m =>
      simp only [he] at hout
      subst hout
      obtain ⟨pre, fe, h1, h2, h3, h4, h5, h6, h7, h8, h9⟩ :=
        execSteps_fail_spec caps exec g planId steps order initAcc acc m
          (fun i hi => hrange i hi) he
      have hevents : acc.events = pre ++ [fe] := by simpa [initAcc] using h1
      refine ⟨pre, fe, m, hevents, rfl, h3, h4, h5, h6,
        by simpa [initAcc] using h7, by simpa [initAcc] using h8, h2, ?_, ?_, ?_⟩
      · rw [hevents]; exact h9
      · intro j hj hjk e he2
        have he3 : e ∈ pre ++ [fe] := by
          rw [← hevents]
          exact he2
        have hmem : e.step_index ∈ order.take (pre.length + 1) := by
          rw [← h9]
          exact List.mem_map_of_mem Event.step_index he3
        intro heq
        have hlt : order.indexOf e.step_index < pre.length + 1 :=
          indexOf_lt_of_mem_take hmem
        have hmem2 : e.step_index ∈ order := List.mem_of_mem_take hmem
        have hidx : order.indexOf e.step_index < order.length :=
          List.indexOf_lt_length.mpr hmem2
        have hget : order.get ⟨order.indexOf e.step_index, hidx⟩ = e.step_index :=
          List.indexOf_get hidx
        have hgets : order.get ⟨order.indexOf e.step_index, hidx⟩ =
            order.get ⟨j, hj⟩ := by
          rw [hget]
          exact heq
        have hfin := hnodup.get_inj_iff.mp hgets
        have : order.indexOf e.step_index = j := by
          simpa using hfin
        omega
      · intro status hs1 hs2
        have hEP : executePlan caps exec g planId steps =
            ⟨false, acc.executedSteps, acc.failedSteps, acc.events,
              acc.stored, some m⟩ := by
          unfold executePlan
          simp only [hsort, he]
        simp only [handleExecutePlan]
        rw [if_neg (by simp [hs1]), if_neg (by simp [hs2]), hEP]
        rfl

/-- An executor oracle that fails exactly on step index 1. -/
def execFail1 : Nat → Step → Val → ExecutorResponse := fun i _ _ =>
  if i == 1 then ⟨Val.vNull, [], some "boom"⟩ else ⟨Val.vNull, [], none⟩

/-- A three-step plan with no dependencies and no declared capabilities. -/
def exFail3 : List Step :=
  [⟨"analyze_content", Val.vNull, [], [], []⟩,
   ⟨"analyze_content", Val.vNull, [], [], []⟩,
   ⟨"analyze_content", Val.vNull, [], [], []⟩]

/-- Witness for C4: on the three-step plan where step 1 fails, execution
records one success-prefix event and one failure event, fails exactly one
step, and never touches step 2. -/
theorem c4_witness :
    topologicalSort exFail3 = Except.ok [0, 1, 2] ∧
    (executePlan exReg execFail1 exOracle "p" exFail3).success = false ∧
    ∃ pre fe msg,
      (executePlan exReg execFail1 exOracle "p" exFail3).events = pre ++ [fe] ∧
      fe.error = some msg ∧
      (executePlan exReg execFail1 exOracle "p" exFail3).failedSteps = 1 ∧
      (executePlan exReg execFail1 exOracle "p" exFail3).events.map
        Event.step_index = [0, 1].take (pre.length + 1) ++ [] := by
  obtain ⟨pre, fe, msg, h1, _, h3, _, _, _, h7, _, _, h10, _, _⟩ :=
    c4_fail_fast exReg execFail1 exOracle "p" exFail3 [0, 1, 2]
      (executePlan exReg execFail1 exOracle "p" exFail3) rfl rfl rfl
  refine ⟨rfl, rfl, pre, fe, msg, h1, h3, h7, ?_⟩
  have hpre : pre.length = 1 := by
    have hev : (executePlan exReg execFail1 exOracle "p" exFail3).events.length
        = 2 := rfl
    rw [h1] at hev
    simp at hev
    omega
  rw [h10, hpre]
  rfl

/-! ## Idempotent execute and status transitions (C7) -/

/-- **C7**: calling execute while the plan is `executing` returns the
`already_executing` no-op with no status write, no events and no dependence
on the executor (no step runs); while `completed`, the `already_completed`
no-op likewise; otherwise the engine writes `executing` first and then
exactly one of `completed`/`failed` according to the run's success. -/
theorem c7_execute_idempotency_guards (caps : List Capability)
    (exec : Nat → Step → Val → ExecutorResponse) (g : Oracle) (planId : String)
    (steps : List Step) (status : String) :
    (status = "executing" →
      handleExecutePlan caps exec g planId steps status =
        (HandleResult.alreadyExecuting, []) ∧
      ∀ exec2, handleExecutePlan caps exec2 g planId steps status =
        (HandleResult.alreadyExecuting, [])) ∧
    (status = "completed" →
      handleExecutePlan caps exec g planId steps status =
        (HandleResult.alreadyCompleted, []) ∧
      ∀ exec2, handleExecutePlan caps exec2 g planId steps status =
        (HandleResult.alreadyCompleted, [])) ∧
    (status ≠ "executing" → status ≠ "completed" →
      handleExecutePlan caps exec g planId steps status =
        (HandleResult.ran
          (if (executePlan caps exec g planId steps).success then "completed"
            else "failed")
          (executePlan caps exec g planId steps),
         ["executing",
          if (executePlan caps exec g planId steps).success then "completed"
            else "failed"])) := by
  refine ⟨?_, ?_, ?_⟩
  · intro h
    subst h
    exact ⟨by simp [handleExecutePlan], fun exec2 => by simp [handleExecutePlan]⟩
  · intro h
    subst h
    exact ⟨by simp [handleExecutePlan], fun exec2 => by simp [handleExecutePlan]⟩
  · intro h1 h2
    simp only [handleExecutePlan]
    rw [if_neg (by simp [h1]), if_neg (by simp [h2])]

/-- Witness for C7: the three guard cases at concrete statuses on a concrete
plan whose execution succeeds. -/
theorem c7_witness :
    handleExecutePlan exReg execOkNull exOracle "p" exFail3 "executing" =
      (HandleResult.alreadyExecuting, []) ∧
    handleExecutePlan exReg execOkNull exOracle "p" exFail3 "completed" =
      (HandleResult.alreadyCompleted, []) ∧
    handleExecutePlan exReg execOkNull exOracle "p" exFail3 "pending" =
      (HandleResult.ran "completed"
        (executePlan exReg execOkNull exOracle "p" exFail3),
       ["executing", "completed"]) := by
  refine ⟨((c7_execute_idempotency_guards exReg execOkNull exOracle "p" exFail3
    "executing").1 rfl).1,
    ((c7_execute_idempotency_guards exReg execOkNull exOracle "p" exFail3
      "completed").2.1 rfl).1, ?_⟩
  have h := (c7_execute_idempotency_guards exReg execOkNull exOracle "p" exFail3
    "pending").2.2 (by decide) (by decide)
  rw [h]
  rfl

/-! ## System capability immutability (C8) -/

/-- **C8**: when the looked-up capability carries `is_system = true`, both
the update handler and the delete handler answer with HTTP 403 and return the
registry unchanged (every entry's kind, scope, description and membership is
exactly as before). -/
theorem c8_system_capability_immutable (caps : List Capability) (id : String)
    (body : UpdateBody) (nowTs : String) (c : Capability)
    (hget : capGet caps id = some c) (hsys : c.is_system = true) :
    handleUpdateCapability caps id body nowTs = (403, caps) ∧
    handleDeleteCapability caps id = (403, caps) := by
  constructor
  · simp only [handleUpdateCapability, hget]
    simp [hsys]
  · simp only [handleDeleteCapability, hget]
    simp [hsys]

/-- Witness for C8: updating or deleting the system capability `WRITE_FILE`
of the seeded registry is rejected with 403 and leaves the registry intact. -/
theorem c8_witness :
    handleUpdateCapability exReg "WRITE_FILE" {} "2025-06-01" = (403, exReg) ∧
    handleDeleteCapability exReg "WRITE_FILE" = (403, exReg) :=
  c8_system_capability_immutable exReg "WRITE_FILE" {} "2025-06-01"
    ⟨"WRITE_FILE", CapKind.ToolCap, "fs", some "Write files to filesystem",
      true, []⟩ rfl rfl

/-! ## Step context isolation (C9) -/

/-- Membership in the context fold: a binding is either inherited from the
accumulator or generated by some listed dependency whose stored result it
carries under that dependency's key. -/
theorem ctxFold_mem (rs : List (Nat × Val)) :
    ∀ (l : List Int) (acc : List (String × Val)) (kv : String × Val),
    (kv ∈ l.foldl (fun acc d =>
      match resLookup rs d with
      | some r => acc ++ [(ctxKey d, r)]
      | none => acc) acc) ↔
    kv ∈ acc ∨ ∃ d ∈ l, resLookup rs d = some kv.snd ∧ kv.fst = ctxKey d := by
  intro l
  induction l with
  | nil => simp
  | cons d ds ih =>
    intro acc kv
    simp only [List.foldl_cons]
    cases hd : resLookup rs d with
    | none =>
      simp only [hd]
      rw [ih]
      constructor
      · rintro (h | ⟨d2, hd2, hr, hk⟩)
        · exact Or.inl h
        · exact Or.inr ⟨d2, List.mem_cons_of_mem _ hd2, hr, hk⟩
      · rintro (h | ⟨d2, hd2, hr, hk⟩)
        · exact Or.inl h
        · rcases List.mem_cons.mp hd2 with h2 | h2
          · subst h2
            rw [hd] at hr
            cases hr
          · exact Or.inr ⟨d2, h2, hr, hk⟩
    | some r =>
      simp only [hd]
      rw [ih]
      constructor
      · rintro (h | ⟨d2, hd2, hr, hk⟩)
        · rcases List.mem_append.mp h with h2 | h2
          · exact Or.inl h2
          · simp only [List.mem_singleton] at h2
            subst h2
            exact Or.inr ⟨d, List.mem_cons_self d ds, by rw [hd], rfl⟩
        · exact Or.inr ⟨d2, List.mem_cons_of_mem _ hd2, hr, hk⟩
      · rintro (h | ⟨d2, hd2, hr, hk⟩)
        · exact Or.inl (List.mem_append_left _ h)
        · rcases List.mem_cons.mp hd2 with h2 | h2
          · rw [h2] at hr hk
            rw [hd] at hr
            have hsnd : r = kv.snd := Option.some.inj hr
            have hkv : kv = (ctxKey d, r) := by
              cases kv
              simp_all
            exact Or.inl (List.mem_append_right _ (by rw [hkv]; simp))
          · exact Or.inr ⟨d2, h2, hr, hk⟩

/-- The context fold only reads the results of the listed dependencies. -/
theorem ctxFold_congr (rs1 rs2 : List (Nat × Val)) :
    ∀ (l : List Int) (acc : List (String × Val)),
    (∀ d ∈ l, resLookup rs1 d = resLookup rs2 d) →
    l.foldl (fun acc d =>
      match resLookup rs1 d with
      | some r => acc ++ [(ctxKey d, r)]
      | none => acc) acc =
    l.foldl (fun acc d =>
      match resLookup rs2 d with
      | some r => acc ++ [(ctxKey d, r)]
      | none => acc) acc := by
  intro l
  induction l with
  | nil => intro acc _; rfl
  | cons d ds ih =>
    intro acc h
    simp only [List.foldl_cons]
    rw [h d (List.mem_cons_self d ds)]
    exact ih _ (fun d2 hd2 => h d2 (List.mem_cons_of_mem _ hd2))

/-- **C9**: the context built for a step holds exactly the stored results of
its declared dependency indices, each under the key naming that dependency,
and nothing else; consequently two runs whose step-result stores agree on
the step's dependencies — however much they differ on non-dependency
steps — build the identical context. -/
theorem c9_context_isolation (step : Step) (rs1 rs2 : List (Nat × Val)) :
    ((∀ d ∈ step.deps, resLookup rs1 d = resLookup rs2 d) →
      buildStepContext step rs1 = buildStepContext step rs2) ∧
    (∀ d ∈ step.deps, ∀ r, resLookup rs1 d = some r →
      (ctxKey d, r) ∈ ctxFields step rs1) ∧
    (∀ kv ∈ ctxFields step rs1, ∃ d ∈ step.deps,
      resLookup rs1 d = some kv.snd ∧ kv.fst = ctxKey d) := by
  refine ⟨?_, ?_, ?_⟩
  · intro h
    unfold buildStepContext ctxFields
    rw [ctxFold_congr rs1 rs2 step.deps [] h]
  · intro d hd r hr
    unfold ctxFields
    rw [ctxFold_mem]
    exact Or.inr ⟨d, hd, by rw [hr], rfl⟩
  · intro kv hkv
    unfold ctxFields at hkv
    rw [ctxFold_mem] at hkv
    rcases hkv with h | h
    · cases h
    · exact h

/-- Witness for C9: for a step depending only on step 0, two stores agreeing
on step 0 but differing on step 1 build the same context, and the context
holds step 0's result under its key. -/
theorem c9_witness :
    buildStepContext ⟨"analyze_content", Val.vNull, [], [], [0]⟩
      [(0, Val.vStr "a"), (1, Val.vStr "b")] =
    buildStepContext ⟨"analyze_content", Val.vNull, [], [], [0]⟩
      [(0, Val.vStr "a"), (1, Val.vStr "zzz")] ∧
    (ctxKey 0, Val.vStr "a") ∈ ctxFields
      ⟨"analyze_content", Val.vNull, [], [], [0]⟩
      [(0, Val.vStr "a"), (1, Val.vStr "b")] := by
  constructor
  · exact (c9_context_isolation ⟨"analyze_content", Val.vNull, [], [], [0]⟩
      [(0, Val.vStr "a"), (1, Val.vStr "b")]
      [(0, Val.vStr "a"), (1, Val.vStr "zzz")]).1 (by
        intro d hd
        simp only [List.mem_singleton] at hd
        subst hd
        rfl)
  · exact (c9_context_isolation ⟨"analyze_content", Val.vNull, [], [], [0]⟩
      [(0, Val.vStr "a"), (1, Val.vStr "b")]
      [(0, Val.vStr "a"), (1, Val.vStr "b")]).2.1 0
      (List.mem_singleton.mpr rfl) (Val.vStr "a") rfl

end IntentRouter
